import Mathlib

/-!
Verification of the TipEase dashboard's data-normalization and
aggregation pipeline (`app.py`).

Modelling conventions:
* Python strings are Lean `String`s; a pandas cell is a `String`.
* Numeric cells are parsed into `ℚ` (pandas float64 values are used only
  for sums, means and comparisons here, so exact rationals are the
  faithful shallow embedding of the arithmetic the dashboard performs).
* The synthetic timestamp `base_date + timedelta(days=d) + timedelta(hours=h)`
  is modelled by its hour offset `24 * d + h` from the per-load anchor
  `base_date`; the code only ever compares timestamps of one load.
* A pandas exception (KeyError on a missing column, IntCastingNaNError
  from `astype(int)` on NaN, ValueError from `idxmax` on an empty frame,
  the NaN produced by `mean()` of an empty column) is modelled by an
  `Except.error` / `Option.none` value.
* `sort_values` is modelled as a stable insertion sort; numpy's default
  sort coincides with a stable sort on the small frames involved.
-/

namespace TipEase

open List

/-! ## Header repair and mapping (`load_df`, app.py lines 34-53) -/

/-- The bilingual header lookup table `col_map` (app.py lines 38-44). -/
def col_map : List (String × String) :=
  [("Day / Día", "day"),
   ("Guest ID / Huésped", "guest"),
   ("Tip (USD) / Propina (USD)", "tip"),
   ("Department / Departamento", "dept"),
   ("Time of Day / Hora del Día", "tod")]

/-- The mojibake marker character tested by `"Ã" in c` (app.py line 48). -/
def mojiMarker : Char := 'Ã'

/-- Python `s.encode("latin1", "ignore")`: each code point ≤ 255 becomes the
byte of the same value; code points above 255 are dropped. -/
def encodeLatin1Ignore (s : String) : List Nat :=
  (s.data.filter (fun c => c.toNat ≤ 255)).map Char.toNat

/-- Python `bs.decode("latin1")`: byte `b` becomes code point `b`. -/
def decodeLatin1 (bs : List Nat) : String :=
  ⟨bs.map Char.ofNat⟩

/-- Python `bs.decode("utf-8")`, restricted to one- and two-byte sequences
(enough for the accented Latin-1-range characters in the headers).
Modelled from the spec: the spec's "reinterpret it as bytes using a
lossless single-byte codec" intends a byte-preserving re-decode of the
Latin-1 bytes as UTF-8; this decoder expresses that intended round trip
for comparison with what `load_df` actually computes. -/
def decodeUtf8 : List Nat → Option (List Char)
  | [] => some []
  | b :: bs =>
    if b < 128 then (decodeUtf8 bs).map (fun cs => Char.ofNat b :: cs)
    else
      match bs with
      | [] => none
      | b2 :: bs2 =>
        if 192 ≤ b && b < 224 && 128 ≤ b2 && b2 < 192 then
          (decodeUtf8 bs2).map (fun cs => Char.ofNat ((b - 192) * 64 + (b2 - 128)) :: cs)
        else none

/-- The header normalization applied by `load_df` to one column name
(app.py lines 46-52): if the cell contains the mojibake marker it is
round-tripped through `encode("latin1","ignore").decode("latin1")`, the
result is looked up in `col_map` and the column renamed on a hit (the
code's extra `c != col_map[key]` guard only skips a rename to the same
name, which is the identity anyway); afterwards `df.rename(columns=col_map)`
applies the table once more to the (possibly renamed) name. -/
def mapHeader (c : String) : String :=
  let key := if c.data.contains mojiMarker then decodeLatin1 (encodeLatin1Ignore c) else c
  let c1 :=
    match col_map.lookup key with
    | some v => v
    | none => c
  match col_map.lookup c1 with
  | some v => v
  | none => c1

/-! ## Raw tables and normalization (app.py lines 34-85) -/

/-- A raw CSV as read by `pd.read_csv`: a header row and data rows of cells. -/
structure RawTable where
  headers : List String
  rows : List (List String)
deriving DecidableEq, Repr

/-- Position of the column whose (mapped) header equals `name`. -/
def colIdx (t : RawTable) (name : String) : Option Nat :=
  (t.headers.map mapHeader).findIdx? (fun h => h == name)

/-- Column access `df[name]` after header mapping: `none` models the
KeyError pandas raises when the column is absent. -/
def getCol (t : RawTable) (name : String) : Option (List String) :=
  (colIdx t name).map (fun i => t.rows.map (fun row => row.getD i ""))

/-- Numeric parsing of one cell, modelling `pd.to_numeric(_, errors="coerce")`
on plain decimal numerals: optional sign, digits, optional fractional part;
anything else coerces to `none` (pandas NaN). -/
def parseRat (s : String) : Option ℚ :=
  let body : Int × List Char :=
    match s.data with
    | '-' :: rest => (-1, rest)
    | '+' :: rest => (1, rest)
    | cs => (1, cs)
  let sgn := body.1
  let intPart := body.2.takeWhile Char.isDigit
  let rest := body.2.dropWhile Char.isDigit
  let natVal : List Char → Nat := fun l => l.foldl (fun a c => 10 * a + (c.toNat - 48)) 0
  match rest with
  | [] =>
    if intPart.isEmpty then none
    else some ((sgn : ℚ) * (natVal intPart : ℚ))
  | '.' :: frac =>
    if frac.all Char.isDigit && (!intPart.isEmpty || !frac.isEmpty) then
      some ((sgn : ℚ) * ((natVal intPart : ℚ) + (natVal frac : ℚ) / ((10 : ℚ) ^ frac.length)))
    else none
  | _ => none

/-- The tip coercion of app.py line 68: `pd.to_numeric(df["tip"],
errors="coerce").fillna(0.0)` — unparseable cells become `0`. -/
def coerceTip (s : String) : ℚ :=
  (parseRat s).getD 0

/-- Truncation toward zero, modelling `astype(int)` / Python `int(x)` on a
finite float. -/
def truncQ (q : ℚ) : Int :=
  if 0 ≤ q.num then ((q.num.natAbs / q.den : ℕ) : ℤ)
  else -((q.num.natAbs / q.den : ℕ) : ℤ)

/-- The time-of-day hour table `bucket_map` (app.py lines 72-73). -/
def bucket_map : List (String × Int) :=
  [("Morning", 10), ("Afternoon", 14), ("Evening", 19),
   ("Mañana", 10), ("Tarde", 14), ("Noche", 19)]

/-- Hour derived from a time-of-day cell (app.py line 74):
`df["tod"].map(bucket_map).fillna(12)`. -/
def bucketHour (s : String) : Int :=
  (bucket_map.lookup s).getD 12

/-- One normalized row (spec's `CanonicalRecord`); `timestamp` is the hour
offset of `base_date + days(day) + hours(hour)` from `base_date`. -/
structure CanonicalRecord where
  day : Int
  guest : String
  tip : ℚ
  dept : String
  tod : String
  timestamp : Int
deriving DecidableEq, Repr

/-- Builds one canonical record from the five cells of a row, as the
coercion block of app.py lines 66-85 does. -/
def mkRecord (dayC guestC tipC deptC todC : String) : CanonicalRecord :=
  let d : Int := truncQ ((parseRat dayC).getD 0)
  let h : Int := bucketHour todC
  { day := d, guest := guestC, tip := coerceTip tipC, dept := deptC,
    tod := todC, timestamp := 24 * d + h }

/-- Builds the canonical record list from the five columns of an `n`-row
frame (row `i` takes cell `i` of each column). -/
def buildRecords (n : Nat) (dayC guestC tipC deptC todC : List String) :
    List CanonicalRecord :=
  (List.range n).map (fun i =>
    mkRecord (dayC.getD i "") (guestC.getD i "") (tipC.getD i "")
      (deptC.getD i "") (todC.getD i ""))

/-- Failures of the ingestion pipeline: `missingColumn c` models the pandas
KeyError on `df[c]`, `intCastingNaN` models the IntCastingNaNError raised
by `df["day"].astype(int)` when a day cell did not parse (app.py line 67). -/
inductive IngestError where
  | missingColumn : String → IngestError
  | intCastingNaN : IngestError
deriving DecidableEq, Repr

instance {ε γ : Type} [DecidableEq ε] [DecidableEq γ] : DecidableEq (Except ε γ) :=
  fun a b =>
    match a, b with
    | Except.ok x, Except.ok y =>
      if h : x = y then isTrue (by rw [h])
      else isFalse (by intro hh; cases hh; exact h rfl)
    | Except.error x, Except.error y =>
      if h : x = y then isTrue (by rw [h])
      else isFalse (by intro hh; cases hh; exact h rfl)
    | Except.ok _, Except.error _ => isFalse (by intro hh; cases hh)
    | Except.error _, Except.ok _ => isFalse (by intro hh; cases hh)

/-- The whole ingestion pipeline (app.py lines 34-85): header mapping,
then the type coercions in the order the script executes them — `df["day"]`
(line 67, raising on a missing column and then on an unparseable cell),
`df["tip"]` (line 68), `df["tod"]` (line 74), and the `guest` / `dept`
columns required by the first uses at lines 93-94. -/
def normalize (t : RawTable) : Except IngestError (List CanonicalRecord) :=
  match getCol t "day" with
  | none => Except.error (IngestError.missingColumn "day")
  | some dayCol =>
    if dayCol.all (fun c => (parseRat c).isSome) then
      match getCol t "tip" with
      | none => Except.error (IngestError.missingColumn "tip")
      | some tipCol =>
        match getCol t "tod" with
        | none => Except.error (IngestError.missingColumn "tod")
        | some todCol =>
          match getCol t "guest" with
          | none => Except.error (IngestError.missingColumn "guest")
          | some guestCol =>
            match getCol t "dept" with
            | none => Except.error (IngestError.missingColumn "dept")
            | some deptCol =>
              Except.ok (buildRecords t.rows.length dayCol guestCol tipCol deptCol todCol)
    else Except.error IngestError.intCastingNaN

/-! ## Stable sorting (model of `sort_values`) -/

variable {α : Type} {β : Type} [LinearOrder β]

/-- Inserts `a` into `l` before the first element of strictly smaller rank;
equal-rank elements already in `l` stay in front of `a`. -/
def insertDescBy (ρ : α → β) (a : α) : List α → List α
  | [] => [a]
  | b :: l => if ρ b < ρ a then a :: b :: l else b :: insertDescBy ρ a l

/-- Stable descending sort by the rank `ρ`: elements are inserted in input
order, so equal-rank elements keep their input order. -/
def sortDescBy (ρ : α → β) (l : List α) : List α :=
  l.foldl (fun acc a => insertDescBy ρ a acc) []

/-- Ascending counterpart of `insertDescBy`. -/
def insertAscBy (ρ : α → β) (a : α) : List α → List α
  | [] => [a]
  | b :: l => if ρ a < ρ b then a :: b :: l else b :: insertAscBy ρ a l

/-- Stable ascending sort by the rank `ρ`. -/
def sortAscBy (ρ : α → β) (l : List α) : List α :=
  l.foldl (fun acc a => insertAscBy ρ a acc) []

/-! ## Aggregation (app.py lines 92-253) -/

/-- Total tip of a record list: `df["tip"].sum()` (app.py line 92). -/
def sumTips (rs : List CanonicalRecord) : ℚ :=
  (rs.map (fun r => r.tip)).sum

/-- Sum of the tips of the records whose `key` equals `k` (one groupby cell). -/
def tipsOfBy {κ : Type} [DecidableEq κ] (key : CanonicalRecord → κ)
    (rs : List CanonicalRecord) (k : κ) : ℚ :=
  ((rs.filter (fun r => decide (key r = k))).map (fun r => r.tip)).sum

/-- The group keys produced by `df.groupby(key)` with its default
`sort=True`: the distinct key values in ascending order. -/
def groupKeys {κ : Type} [LinearOrder κ] [DecidableEq κ] (key : CanonicalRecord → κ)
    (rs : List CanonicalRecord) : List κ :=
  sortAscBy id ((rs.map key).dedup)

/-- `df.groupby(key)["tip"].sum().reset_index()`: one `(key, total)` pair per
distinct key, keys ascending. -/
def groupTotals {κ : Type} [LinearOrder κ] [DecidableEq κ] (key : CanonicalRecord → κ)
    (rs : List CanonicalRecord) : List (κ × ℚ) :=
  (groupKeys key rs).map (fun k => (k, tipsOfBy key rs k))

/-- `dep_sum` (app.py line 105): group by `dept`, sum `tip`, sort descending
by the total. -/
def dep_sum (rs : List CanonicalRecord) : List (String × ℚ) :=
  sortDescBy (fun p => p.2) (groupTotals (fun r => r.dept) rs)

/-- `daily` (app.py line 115): group by `day`, sum `tip` (ascending days). -/
def daily (rs : List CanonicalRecord) : List (Int × ℚ) :=
  groupTotals (fun r => r.day) rs

/-- `top_guests` (app.py line 132): group by `guest`, sum `tip`, sort
descending by total, keep the first `limit` (the script uses 5). -/
def top_guests (limit : Nat) (rs : List CanonicalRecord) : List (String × ℚ) :=
  (sortDescBy (fun p => p.2) (groupTotals (fun r => r.guest) rs)).take limit

/-- `recent` (app.py line 140): sort descending by timestamp, keep the first
`limit` records (the script uses 15). -/
def recent (limit : Nat) (rs : List CanonicalRecord) : List CanonicalRecord :=
  (sortDescBy (fun r => r.timestamp) rs).take limit

/-- `avg_tip` (app.py line 252): `df["tip"].mean()`; on an empty frame
pandas yields NaN, modelled as `none`. -/
def avg_tip (rs : List CanonicalRecord) : Option ℚ :=
  if rs.isEmpty then none else some (sumTips rs / (rs.length : ℚ))

/-- First entry of maximal second component, modelling `Series.idxmax`
(first occurrence of the maximum); `none` models the ValueError `idxmax`
raises on an empty series. -/
def argmaxFirst : List (Int × ℚ) → Option (Int × ℚ)
  | [] => none
  | e :: es => some (es.foldl (fun best x => if best.2 < x.2 then x else best) e)

/-- `most_active_day` (app.py line 251):
`daily.loc[daily["tip"].idxmax(), "day"]`. -/
def most_active_day (rs : List CanonicalRecord) : Option Int :=
  (argmaxFirst (daily rs)).map (fun p => p.1)

/-- `top_dept` (app.py line 253): first department of `dep_sum`, `None` when
the frame is empty. -/
def top_dept (rs : List CanonicalRecord) : Option String :=
  (dep_sum rs).head?.map (fun p => p.1)

/-! ## Sorting lemmas -/

theorem insertDescBy_perm (ρ : α → β) (a : α) (l : List α) :
    insertDescBy ρ a l ~ a :: l := by
  induction l with
  | nil => exact List.Perm.refl _
  | cons b bs ih =>
    simp only [insertDescBy]
    split
    · exact List.Perm.refl _
    · exact (List.Perm.cons b ih).trans (List.Perm.swap a b bs)

theorem foldl_insertDescBy_perm (ρ : α → β) :
    ∀ (l acc : List α), (l.foldl (fun acc a => insertDescBy ρ a acc) acc) ~ acc ++ l := by
  intro l
  induction l with
  | nil => intro acc; simp
  | cons a l ih =>
    intro acc
    have h1 : (a :: l).foldl (fun acc a => insertDescBy ρ a acc) acc
        = l.foldl (fun acc a => insertDescBy ρ a acc) (insertDescBy ρ a acc) := rfl
    rw [h1]
    exact ((ih _).trans (((insertDescBy_perm ρ a acc).append_right l).trans
      List.perm_middle.symm))

theorem sortDescBy_perm (ρ : α → β) (l : List α) : sortDescBy ρ l ~ l := by
  simpa [sortDescBy] using foldl_insertDescBy_perm ρ l []

theorem insertDescBy_pairwise (ρ : α → β) (a : α) (l : List α)
    (h : l.Pairwise (fun x y => ρ y ≤ ρ x)) :
    (insertDescBy ρ a l).Pairwise (fun x y => ρ y ≤ ρ x) := by
  induction l with
  | nil => simp [insertDescBy]
  | cons b bs ih =>
    rcases List.pairwise_cons.mp h with ⟨hb, hbs⟩
    simp only [insertDescBy]
    split
    next h1 =>
      refine List.Pairwise.cons ?_ h
      intro c hc
      rcases List.mem_cons.mp hc with rfl | hc'
      · exact le_of_lt h1
      · exact le_trans (hb c hc') (le_of_lt h1)
    next h1 =>
      refine List.Pairwise.cons ?_ (ih hbs)
      intro c hc
      rcases List.mem_cons.mp ((insertDescBy_perm ρ a bs).mem_iff.mp hc) with rfl | hc'
      · exact le_of_not_lt h1
      · exact hb c hc'

theorem foldl_insertDescBy_pairwise (ρ : α → β) :
    ∀ (l acc : List α), acc.Pairwise (fun x y => ρ y ≤ ρ x) →
      (l.foldl (fun acc a => insertDescBy ρ a acc) acc).Pairwise (fun x y => ρ y ≤ ρ x) := by
  intro l
  induction l with
  | nil => intro acc h; exact h
  | cons a l ih => intro acc h; exact ih _ (insertDescBy_pairwise ρ a acc h)

theorem sortDescBy_pairwise (ρ : α → β) (l : List α) :
    (sortDescBy ρ l).Pairwise (fun x y => ρ y ≤ ρ x) :=
  foldl_insertDescBy_pairwise ρ l [] List.Pairwise.nil

theorem insertAscBy_perm (ρ : α → β) (a : α) (l : List α) :
    insertAscBy ρ a l ~ a :: l := by
  induction l with
  | nil => exact List.Perm.refl _
  | cons b bs ih =>
    simp only [insertAscBy]
    split
    · exact List.Perm.refl _
    · exact (List.Perm.cons b ih).trans (List.Perm.swap a b bs)

theorem foldl_insertAscBy_perm (ρ : α → β) :
    ∀ (l acc : List α), (l.foldl (fun acc a => insertAscBy ρ a acc) acc) ~ acc ++ l := by
  intro l
  induction l with
  | nil => intro acc; simp
  | cons a l ih =>
    intro acc
    have h1 : (a :: l).foldl (fun acc a => insertAscBy ρ a acc) acc
        = l.foldl (fun acc a => insertAscBy ρ a acc) (insertAscBy ρ a acc) := rfl
    rw [h1]
    exact ((ih _).trans (((insertAscBy_perm ρ a acc).append_right l).trans
      List.perm_middle.symm))

theorem sortAscBy_perm (ρ : α → β) (l : List α) : sortAscBy ρ l ~ l := by
  simpa [sortAscBy] using foldl_insertAscBy_perm ρ l []

theorem insertAscBy_pairwise (ρ : α → β) (a : α) (l : List α)
    (h : l.Pairwise (fun x y => ρ x ≤ ρ y)) :
    (insertAscBy ρ a l).Pairwise (fun x y => ρ x ≤ ρ y) := by
  induction l with
  | nil => simp [insertAscBy]
  | cons b bs ih =>
    rcases List.pairwise_cons.mp h with ⟨hb, hbs⟩
    simp only [insertAscBy]
    split
    next h1 =>
      refine List.Pairwise.cons ?_ h
      intro c hc
      rcases List.mem_cons.mp hc with rfl | hc'
      · exact le_of_lt h1
      · exact le_trans (le_of_lt h1) (hb c hc')
    next h1 =>
      refine List.Pairwise.cons ?_ (ih hbs)
      intro c hc
      rcases List.mem_cons.mp ((insertAscBy_perm ρ a bs).mem_iff.mp hc) with rfl | hc'
      · exact le_of_not_lt h1
      · exact hb c hc'

theorem foldl_insertAscBy_pairwise (ρ : α → β) :
    ∀ (l acc : List α), acc.Pairwise (fun x y => ρ x ≤ ρ y) →
      (l.foldl (fun acc a => insertAscBy ρ a acc) acc).Pairwise (fun x y => ρ x ≤ ρ y) := by
  intro l
  induction l with
  | nil => intro acc h; exact h
  | cons a l ih => intro acc h; exact ih _ (insertAscBy_pairwise ρ a acc h)

theorem sortAscBy_pairwise (ρ : α → β) (l : List α) :
    (sortAscBy ρ l).Pairwise (fun x y => ρ x ≤ ρ y) :=
  foldl_insertAscBy_pairwise ρ l [] List.Pairwise.nil

theorem insertDescBy_map (ρ : α → β) (f : α → α) (hf : ∀ x, ρ (f x) = ρ x)
    (a : α) (l : List α) :
    insertDescBy ρ (f a) (l.map f) = (insertDescBy ρ a l).map f := by
  induction l with
  | nil => rfl
  | cons b bs ih =>
    by_cases h1 : ρ b < ρ a
    · simp [insertDescBy, hf, h1]
    · simp [insertDescBy, hf, h1, ih]

theorem foldl_insertDescBy_map (ρ : α → β) (f : α → α) (hf : ∀ x, ρ (f x) = ρ x) :
    ∀ (l acc : List α),
      (l.map f).foldl (fun acc a => insertDescBy ρ a acc) (acc.map f) =
        (l.foldl (fun acc a => insertDescBy ρ a acc) acc).map f := by
  intro l
  induction l with
  | nil => intro acc; rfl
  | cons a l ih =>
    intro acc
    simp only [List.map_cons, List.foldl_cons]
    rw [insertDescBy_map ρ f hf a acc]
    exact ih _

theorem sortDescBy_map (ρ : α → β) (f : α → α) (hf : ∀ x, ρ (f x) = ρ x)
    (l : List α) : sortDescBy ρ (l.map f) = (sortDescBy ρ l).map f := by
  have h := foldl_insertDescBy_map ρ f hf l []
  simpa [sortDescBy] using h

/-- Order in which a stable descending sort by the second component leaves a
list whose first components were strictly increasing: strictly larger totals
first, ties in ascending order of the first component. -/
def tieOrd {κ : Type} [LinearOrder κ] (a b : κ × ℚ) : Prop :=
  b.2 < a.2 ∨ (a.2 = b.2 ∧ a.1 < b.1)

theorem insertDescBy_snd_tie {κ : Type} [LinearOrder κ] (a : κ × ℚ)
    (l : List (κ × ℚ)) (hl : l.Pairwise tieOrd) (hn : ∀ b ∈ l, b.1 < a.1) :
    (insertDescBy (fun p => p.2) a l).Pairwise tieOrd := by
  induction l with
  | nil => simp [insertDescBy]
  | cons b bs ih =>
    rcases List.pairwise_cons.mp hl with ⟨hb, hbs⟩
    simp only [insertDescBy]
    split
    next h1 =>
      refine List.Pairwise.cons ?_ hl
      intro c hc
      rcases List.mem_cons.mp hc with rfl | hc'
      · exact Or.inl h1
      · rcases hb c hc' with h2 | ⟨h2, _⟩
        · exact Or.inl (h2.trans h1)
        · exact Or.inl (h2 ▸ h1)
    next h1 =>
      have h1' : a.2 ≤ b.2 := le_of_not_lt h1
      refine List.Pairwise.cons ?_
        (ih hbs (fun c hc => hn c (List.mem_cons_of_mem b hc)))
      intro c hc
      rcases List.mem_cons.mp
          ((insertDescBy_perm (fun p => p.2) a bs).mem_iff.mp hc) with rfl | hc'
      · rcases lt_or_eq_of_le h1' with h2 | h2
        · exact Or.inl h2
        · exact Or.inr ⟨h2.symm, hn b (List.mem_cons_self b bs)⟩
      · exact hb c hc'

theorem foldl_insertDescBy_snd_tie {κ : Type} [LinearOrder κ] :
    ∀ (l acc : List (κ × ℚ)),
      acc.Pairwise tieOrd → (∀ b ∈ acc, ∀ x ∈ l, b.1 < x.1) →
      l.Pairwise (fun x y => x.1 < y.1) →
      (l.foldl (fun acc a => insertDescBy (fun p => p.2) a acc) acc).Pairwise tieOrd := by
  intro l
  induction l with
  | nil => intro acc hacc _ _; exact hacc
  | cons a l ih =>
    intro acc hacc hcross hl
    rcases List.pairwise_cons.mp hl with ⟨ha, hl'⟩
    refine ih _ ?_ ?_ hl'
    · exact insertDescBy_snd_tie a acc hacc
        (fun b hb => hcross b hb a (List.mem_cons_self a l))
    · intro b hb x hx
      rcases List.mem_cons.mp
          ((insertDescBy_perm (fun p => p.2) a acc).mem_iff.mp hb) with rfl | hb'
      · exact ha x hx
      · exact hcross b hb' x (List.mem_cons_of_mem a hx)

theorem sortDescBy_snd_tie {κ : Type} [LinearOrder κ] (l : List (κ × ℚ))
    (hl : l.Pairwise (fun x y => x.1 < y.1)) :
    (sortDescBy (fun p => p.2) l).Pairwise tieOrd :=
  foldl_insertDescBy_snd_tie l [] List.Pairwise.nil (by simp) hl

/-! ## Grouping lemmas -/

theorem mem_groupKeys {κ : Type} [LinearOrder κ] [DecidableEq κ]
    (key : CanonicalRecord → κ) (rs : List CanonicalRecord) (k : κ) :
    k ∈ groupKeys key rs ↔ k ∈ rs.map key := by
  unfold groupKeys
  rw [(sortAscBy_perm id _).mem_iff, List.mem_dedup]

theorem groupKeys_nodup {κ : Type} [LinearOrder κ] [DecidableEq κ]
    (key : CanonicalRecord → κ)
    (rs : List CanonicalRecord) : (groupKeys key rs).Nodup :=
  ((sortAscBy_perm id _).nodup_iff).mpr (List.nodup_dedup _)

theorem groupKeys_sorted {κ : Type} [LinearOrder κ] [DecidableEq κ]
    (key : CanonicalRecord → κ)
    (rs : List CanonicalRecord) : (groupKeys key rs).Pairwise (fun a b => a < b) := by
  have h1 : (groupKeys key rs).Sorted (fun a b => a ≤ b) := by
    simpa using sortAscBy_pairwise id ((rs.map key).dedup)
  exact h1.lt_of_le (groupKeys_nodup key rs)

theorem groupTotals_pairwise_fst {κ : Type} [LinearOrder κ] [DecidableEq κ]
    (key : CanonicalRecord → κ) (rs : List CanonicalRecord) :
    (groupTotals key rs).Pairwise (fun a b => a.1 < b.1) := by
  unfold groupTotals
  rw [List.pairwise_map]
  simpa using groupKeys_sorted key rs

theorem mem_groupTotals {κ : Type} [LinearOrder κ] [DecidableEq κ]
    (key : CanonicalRecord → κ) (rs : List CanonicalRecord) (p : κ × ℚ) :
    p ∈ groupTotals key rs ↔ p.1 ∈ rs.map key ∧ p.2 = tipsOfBy key rs p.1 := by
  unfold groupTotals
  rw [List.mem_map]
  constructor
  · rintro ⟨k, hk, rfl⟩
    exact ⟨(mem_groupKeys key rs k).mp hk, rfl⟩
  · rintro ⟨h1, h2⟩
    refine ⟨p.1, (mem_groupKeys key rs p.1).mpr h1, ?_⟩
    cases p
    simp only at h2 ⊢
    rw [h2]

theorem sum_map_add_q {κ : Type} (f g : κ → ℚ) (l : List κ) :
    (l.map (fun k => f k + g k)).sum = (l.map f).sum + (l.map g).sum := by
  induction l with
  | nil => simp
  | cons a l ih =>
    simp only [List.map_cons, List.sum_cons, ih]
    ring

theorem sum_map_ite_q {κ : Type} [DecidableEq κ] (r : κ) (q : ℚ) (ks : List κ)
    (hnd : ks.Nodup) (hm : r ∈ ks) :
    (ks.map (fun k => if r = k then q else 0)).sum = q := by
  induction ks with
  | nil => cases hm
  | cons k0 ks ih =>
    rcases List.nodup_cons.mp hnd with ⟨hk0, hnd'⟩
    rcases List.mem_cons.mp hm with rfl | hm'
    · simp only [List.map_cons, List.sum_cons, if_pos rfl]
      have hz : (ks.map (fun k => if r = k then q else 0)).sum = 0 := by
        apply List.sum_eq_zero
        intro x hx
        rcases List.mem_map.mp hx with ⟨k, hk, rfl⟩
        exact if_neg (by rintro rfl; exact hk0 hk)
      rw [hz]
      simp
    · have hne : r ≠ k0 := by rintro rfl; exact hk0 hm'
      simp only [List.map_cons, List.sum_cons, if_neg hne, zero_add]
      exact ih hnd' hm'

theorem tipsOfBy_cons {κ : Type} [DecidableEq κ] (key : CanonicalRecord → κ)
    (r : CanonicalRecord) (rs : List CanonicalRecord) (k : κ) :
    tipsOfBy key (r :: rs) k = (if key r = k then r.tip else 0) + tipsOfBy key rs k := by
  by_cases h : key r = k <;> simp [tipsOfBy, List.filter_cons, h]

theorem sum_fiber {κ : Type} [DecidableEq κ] (key : CanonicalRecord → κ)
    (ks : List κ) (rs : List CanonicalRecord) (hnd : ks.Nodup)
    (hcov : ∀ r ∈ rs, key r ∈ ks) :
    (ks.map (fun k => tipsOfBy key rs k)).sum = sumTips rs := by
  induction rs with
  | nil => simp [tipsOfBy, sumTips]
  | cons r rs ih =>
    have h1 : (ks.map (fun k => tipsOfBy key (r :: rs) k)).sum
        = (ks.map (fun k => (if key r = k then r.tip else 0) + tipsOfBy key rs k)).sum := by
      simp only [tipsOfBy_cons]
    rw [h1, sum_map_add_q,
      sum_map_ite_q (key r) r.tip ks hnd (hcov r (List.mem_cons_self r rs)),
      ih (fun x hx => hcov x (List.mem_cons_of_mem r hx))]
    simp [sumTips]

theorem tipsOfBy_perm {κ : Type} [DecidableEq κ] (key : CanonicalRecord → κ)
    {rs rs' : List CanonicalRecord} (h : rs ~ rs') (k : κ) :
    tipsOfBy key rs k = tipsOfBy key rs' k :=
  List.Perm.sum_eq ((h.filter _).map _)

theorem groupKeys_perm {κ : Type} [LinearOrder κ] [DecidableEq κ]
    (key : CanonicalRecord → κ) {rs rs' : List CanonicalRecord} (h : rs ~ rs') :
    groupKeys key rs = groupKeys key rs' := by
  have hmem : ∀ a, a ∈ groupKeys key rs ↔ a ∈ groupKeys key rs' := by
    intro a
    rw [mem_groupKeys, mem_groupKeys, (h.map key).mem_iff]
  have hperm := (List.perm_ext_iff_of_nodup
    (groupKeys_nodup key rs) (groupKeys_nodup key rs')).mpr hmem
  exact List.eq_of_perm_of_sorted hperm
    ((groupKeys_sorted key rs).imp le_of_lt)
    ((groupKeys_sorted key rs').imp le_of_lt)

theorem groupTotals_perm {κ : Type} [LinearOrder κ] [DecidableEq κ]
    (key : CanonicalRecord → κ) {rs rs' : List CanonicalRecord} (h : rs ~ rs') :
    groupTotals key rs = groupTotals key rs' := by
  unfold groupTotals
  rw [groupKeys_perm key h]
  apply List.map_congr_left
  intro k _
  rw [tipsOfBy_perm key h]

theorem daily_perm {rs rs' : List CanonicalRecord} (h : rs ~ rs') :
    daily rs = daily rs' :=
  groupTotals_perm _ h

theorem dep_sum_perm {rs rs' : List CanonicalRecord} (h : rs ~ rs') :
    dep_sum rs = dep_sum rs' := by
  unfold dep_sum
  rw [groupTotals_perm _ h]

theorem most_active_day_perm {rs rs' : List CanonicalRecord} (h : rs ~ rs') :
    most_active_day rs = most_active_day rs' := by
  unfold most_active_day
  rw [daily_perm h]

/-! ## The first-occurrence argmax (`Series.idxmax`) -/

theorem foldl_max_spec :
    ∀ (es : List (Int × ℚ)) (b : Int × ℚ),
      (∀ x ∈ es, b.1 < x.1) → es.Pairwise (fun x y => x.1 < y.1) →
      ((es.foldl (fun best x => if best.2 < x.2 then x else best) b) ∈ b :: es ∧
       (∀ x ∈ b :: es,
         x.2 ≤ (es.foldl (fun best x => if best.2 < x.2 then x else best) b).2) ∧
       (∀ x ∈ b :: es,
         x.2 = (es.foldl (fun best x => if best.2 < x.2 then x else best) b).2 →
         (es.foldl (fun best x => if best.2 < x.2 then x else best) b).1 ≤ x.1)) := by
  intro es
  induction es with
  | nil =>
    intro b _ _
    refine ⟨List.mem_cons_self b [], ?_, ?_⟩
    · intro x hx
      rcases List.mem_cons.mp hx with rfl | h
      · exact le_refl _
      · cases h
    · intro x hx _
      rcases List.mem_cons.mp hx with rfl | h
      · exact le_refl _
      · cases h
  | cons e es ih =>
    intro b hd hp
    rcases List.pairwise_cons.mp hp with ⟨he, hp'⟩
    by_cases hbe : b.2 < e.2
    · have hmain := ih e he hp'
      simp only [List.foldl_cons, if_pos hbe]
      rcases hmain with ⟨hm1, hm2, hm3⟩
      refine ⟨?_, ?_, ?_⟩
      · rcases List.mem_cons.mp hm1 with h | h
        · rw [h]
          exact List.mem_cons_of_mem b (List.mem_cons_self e es)
        · exact List.mem_cons_of_mem b (List.mem_cons_of_mem e h)
      · intro x hx
        rcases List.mem_cons.mp hx with rfl | hx'
        · exact le_trans (le_of_lt hbe) (hm2 e (List.mem_cons_self e es))
        · exact hm2 x hx'
      · intro x hx hxe
        rcases List.mem_cons.mp hx with rfl | hx'
        · exact absurd hxe
            (ne_of_lt (lt_of_lt_of_le hbe (hm2 e (List.mem_cons_self e es))))
        · exact hm3 x hx' hxe
    · have hd' : ∀ x ∈ es, b.1 < x.1 := fun x hx => hd x (List.mem_cons_of_mem e hx)
      have hmain := ih b hd' hp'
      simp only [List.foldl_cons, if_neg hbe]
      rcases hmain with ⟨hm1, hm2, hm3⟩
      refine ⟨?_, ?_, ?_⟩
      · rcases List.mem_cons.mp hm1 with h | h
        · rw [h]
          exact List.mem_cons_self b (e :: es)
        · exact List.mem_cons_of_mem b (List.mem_cons_of_mem e h)
      · intro x hx
        rcases List.mem_cons.mp hx with rfl | hx'
        · exact hm2 x (List.mem_cons_self x es)
        · rcases List.mem_cons.mp hx' with rfl | hx''
          · exact le_trans (le_of_not_lt hbe) (hm2 b (List.mem_cons_self b es))
          · exact hm2 x (List.mem_cons_of_mem b hx'')
      · intro x hx hxe
        rcases List.mem_cons.mp hx with rfl | hx'
        · exact hm3 x (List.mem_cons_self x es) hxe
        · rcases List.mem_cons.mp hx' with rfl | hx''
          · have hb2 := hm2 b (List.mem_cons_self b es)
            have hb2' := le_antisymm hb2 (hxe ▸ le_of_not_lt hbe)
            have hble := hm3 b (List.mem_cons_self b es) hb2'
            exact le_of_lt (lt_of_le_of_lt hble (hd x (List.mem_cons_self x es)))
          · exact hm3 x (List.mem_cons_of_mem b hx'') hxe

theorem argmaxFirst_spec (l : List (Int × ℚ))
    (hl : l.Pairwise (fun x y => x.1 < y.1)) (hne : l ≠ []) :
    ∃ e, argmaxFirst l = some e ∧ e ∈ l ∧ (∀ x ∈ l, x.2 ≤ e.2) ∧
      (∀ x ∈ l, x.2 = e.2 → e.1 ≤ x.1) := by
  cases l with
  | nil => cases hne rfl
  | cons e es =>
    rcases List.pairwise_cons.mp hl with ⟨he, hp'⟩
    obtain ⟨h1, h2, h3⟩ := foldl_max_spec es e he hp'
    exact ⟨_, rfl, h1, h2, h3⟩

/-! ## Record construction lemmas -/

theorem buildRecords_length (n : Nat) (a b c d e : List String) :
    (buildRecords n a b c d e).length = n := by
  simp [buildRecords]

theorem range_map_getD {γ : Type} (f : String → γ) :
    ∀ l : List String,
      (List.range l.length).map (fun i => f (l.getD i "")) = l.map f := by
  intro l
  induction l with
  | nil => rfl
  | cons a l ih =>
    rw [List.length_cons, List.range_succ_eq_map]
    simp only [List.map_cons, List.map_map, List.getD_cons_zero]
    have heq : (List.range l.length).map ((fun i => f ((a :: l).getD i "")) ∘ Nat.succ)
        = (List.range l.length).map (fun i => f (l.getD i "")) := by
      apply List.map_congr_left
      intro i _
      simp [List.getD_cons_succ]
    rw [heq, ih]

theorem buildRecords_map_tip (n : Nat) (a b c d e : List String)
    (hc : c.length = n) :
    (buildRecords n a b c d e).map (fun r => r.tip) = c.map coerceTip := by
  subst hc
  unfold buildRecords
  rw [List.map_map]
  have heq : ((fun r => r.tip) ∘ (fun i =>
      mkRecord (a.getD i "") (b.getD i "") (c.getD i "") (d.getD i "") (e.getD i "")))
      = fun i => coerceTip (c.getD i "") := by
    funext i
    rfl
  rw [heq]
  exact range_map_getD coerceTip c

/-! ## Language swap (for the locale-noninterference claim) -/

/-- Swaps each time-of-day word with its other-language synonym; all other
strings are unchanged.  This is the spec-side transformation of the
hyperproperty: two inputs that differ only by this swap. -/
def swapLang (s : String) : String :=
  if s = "Morning" then "Mañana" else if s = "Mañana" then "Morning"
  else if s = "Afternoon" then "Tarde" else if s = "Tarde" then "Afternoon"
  else if s = "Evening" then "Noche" else if s = "Noche" then "Evening" else s

/-- Record-level effect of `swapLang`: only the stored `tod` text changes. -/
def swapRec (r : CanonicalRecord) : CanonicalRecord :=
  { r with tod := swapLang r.tod }

theorem bucketHour_swapLang (s : String) : bucketHour (swapLang s) = bucketHour s := by
  unfold swapLang
  split_ifs <;> subst_vars <;> rfl

theorem mkRecord_swapLang (d g t dp td : String) :
    mkRecord d g t dp (swapLang td) = swapRec (mkRecord d g t dp td) := by
  unfold mkRecord swapRec
  simp only [bucketHour_swapLang]

theorem buildRecords_swapLang (n : Nat) (ds gs ts dps tds : List String) :
    buildRecords n ds gs ts dps (tds.map swapLang)
      = (buildRecords n ds gs ts dps tds).map swapRec := by
  unfold buildRecords
  rw [List.map_map]
  apply List.map_congr_left
  intro i _
  have h1 : (tds.map swapLang).getD i "" = swapLang (tds.getD i "") := by
    rw [show ((tds.map swapLang).getD i "" : String)
        = (tds.map swapLang).getD i (swapLang "") from rfl]
    exact List.getD_map _ _ swapLang
  rw [h1, mkRecord_swapLang]
  rfl

/-! ## Normalization equation lemmas -/

theorem normalize_day_none {t : RawTable} (h : getCol t "day" = none) :
    normalize t = Except.error (IngestError.missingColumn "day") := by
  simp [normalize, h]

theorem normalize_day_bad {t : RawTable} {dayCol : List String}
    (h : getCol t "day" = some dayCol)
    (hbad : dayCol.all (fun c => (parseRat c).isSome) = false) :
    normalize t = Except.error IngestError.intCastingNaN := by
  simp [normalize, h, hbad]

theorem normalize_tip_none {t : RawTable} {dayCol : List String}
    (h : getCol t "day" = some dayCol)
    (hall : dayCol.all (fun c => (parseRat c).isSome) = true)
    (h2 : getCol t "tip" = none) :
    normalize t = Except.error (IngestError.missingColumn "tip") := by
  simp [normalize, h, hall, h2]

theorem normalize_tod_none {t : RawTable} {dayCol tipCol : List String}
    (h : getCol t "day" = some dayCol)
    (hall : dayCol.all (fun c => (parseRat c).isSome) = true)
    (h2 : getCol t "tip" = some tipCol) (h3 : getCol t "tod" = none) :
    normalize t = Except.error (IngestError.missingColumn "tod") := by
  simp [normalize, h, hall, h2, h3]

theorem normalize_guest_none {t : RawTable} {dayCol tipCol todCol : List String}
    (h : getCol t "day" = some dayCol)
    (hall : dayCol.all (fun c => (parseRat c).isSome) = true)
    (h2 : getCol t "tip" = some tipCol) (h3 : getCol t "tod" = some todCol)
    (h4 : getCol t "guest" = none) :
    normalize t = Except.error (IngestError.missingColumn "guest") := by
  simp [normalize, h, hall, h2, h3, h4]

theorem normalize_dept_none {t : RawTable} {dayCol tipCol todCol guestCol : List String}
    (h : getCol t "day" = some dayCol)
    (hall : dayCol.all (fun c => (parseRat c).isSome) = true)
    (h2 : getCol t "tip" = some tipCol) (h3 : getCol t "tod" = some todCol)
    (h4 : getCol t "guest" = some guestCol) (h5 : getCol t "dept" = none) :
    normalize t = Except.error (IngestError.missingColumn "dept") := by
  simp [normalize, h, hall, h2, h3, h4, h5]

theorem normalize_ok_eq {t : RawTable} {dayCol tipCol todCol guestCol deptCol : List String}
    (h : getCol t "day" = some dayCol)
    (hall : dayCol.all (fun c => (parseRat c).isSome) = true)
    (h2 : getCol t "tip" = some tipCol) (h3 : getCol t "tod" = some todCol)
    (h4 : getCol t "guest" = some guestCol) (h5 : getCol t "dept" = some deptCol) :
    normalize t
      = Except.ok (buildRecords t.rows.length dayCol guestCol tipCol deptCol todCol) := by
  simp [normalize, h, hall, h2, h3, h4, h5]

theorem normalize_ok_inv {t : RawTable} {recs : List CanonicalRecord}
    (h : normalize t = Except.ok recs) :
    ∃ dayCol tipCol todCol guestCol deptCol,
      getCol t "day" = some dayCol ∧
      dayCol.all (fun c => (parseRat c).isSome) = true ∧
      getCol t "tip" = some tipCol ∧ getCol t "tod" = some todCol ∧
      getCol t "guest" = some guestCol ∧ getCol t "dept" = some deptCol ∧
      recs = buildRecords t.rows.length dayCol guestCol tipCol deptCol todCol := by
  cases hday : getCol t "day" with
  | none => rw [normalize_day_none hday] at h; simp at h
  | some dayCol =>
    cases hall : dayCol.all (fun c => (parseRat c).isSome) with
    | false => rw [normalize_day_bad hday hall] at h; simp at h
    | true =>
      cases htip : getCol t "tip" with
      | none => rw [normalize_tip_none hday hall htip] at h; simp at h
      | some tipCol =>
        cases htod : getCol t "tod" with
        | none => rw [normalize_tod_none hday hall htip htod] at h; simp at h
        | some todCol =>
          cases hguest : getCol t "guest" with
          | none => rw [normalize_guest_none hday hall htip htod hguest] at h; simp at h
          | some guestCol =>
            cases hdept : getCol t "dept" with
            | none =>
              rw [normalize_dept_none hday hall htip htod hguest hdept] at h
              simp at h
            | some deptCol =>
              rw [normalize_ok_eq hday hall htip htod hguest hdept] at h
              exact ⟨dayCol, tipCol, todCol, guestCol, deptCol, rfl, hall, rfl,
                rfl, rfl, rfl, (Except.ok.inj h).symm⟩

theorem getCol_length {t : RawTable} {name : String} {col : List String}
    (h : getCol t name = some col) : col.length = t.rows.length := by
  unfold getCol at h
  cases hidx : colIdx t name with
  | none => rw [hidx] at h; simp at h
  | some i =>
    rw [hidx] at h
    simp at h
    subst h
    simp

/-- True when the mapped headers contain all five canonical column names. -/
def allCols (t : RawTable) : Bool :=
  (getCol t "day").isSome && (getCol t "tip").isSome && (getCol t "tod").isSome &&
    (getCol t "guest").isSome && (getCol t "dept").isSome

/-- True when every cell of the day column parses as a number (vacuously true
when the column is absent). -/
def dayColParses (t : RawTable) : Bool :=
  match getCol t "day" with
  | none => true
  | some dayCol => dayCol.all (fun c => (parseRat c).isSome)

/-! ## Concrete inputs used by the claim instances -/

/-- The UTF-8 bytes of "Day / Día" mis-decoded as Latin-1: the two bytes
0xC3 0xAD of "í" become "Ã" followed by the (invisible) soft hyphen U+00AD,
written with an explicit escape below. -/
def mojiDayHeader : String := "Day / D\u00C3\u00ADa"

/-- The five verbose bilingual headers, correctly encoded. -/
def verboseHeaders : List String :=
  ["Day / Día", "Guest ID / Huésped", "Tip (USD) / Propina (USD)",
   "Department / Departamento", "Time of Day / Hora del Día"]

/-- A one-row file with correctly encoded headers. -/
def cleanTable : RawTable :=
  ⟨verboseHeaders, [["1", "G1", "10", "Spa", "Morning"]]⟩

/-- The same file with the day header mojibake-corrupted. -/
def mojiTable : RawTable :=
  ⟨[mojiDayHeader, "Guest ID / Huésped", "Tip (USD) / Propina (USD)",
    "Department / Departamento", "Time of Day / Hora del Día"],
   [["1", "G1", "10", "Spa", "Morning"]]⟩

/-- A file whose day column contains an unparseable cell. -/
def badDayTable : RawTable :=
  ⟨["day", "guest", "tip", "dept", "tod"], [["bad", "G1", "5", "Spa", "Morning"]]⟩

/-- A file with a negative tip cell. -/
def negTipTable : RawTable :=
  ⟨["day", "guest", "tip", "dept", "tod"], [["1", "G1", "-5", "Spa", "Morning"]]⟩

/-- A file with an unparseable tip cell in the first row. -/
def fillTipTable : RawTable :=
  ⟨["day", "guest", "tip", "dept", "tod"],
   [["1", "G1", "bad", "Spa", "Morning"], ["2", "G2", "7", "Pool", "Noche"]]⟩

/-- The canonical records `fillTipTable` normalizes to. -/
def fillTipRecords : List CanonicalRecord :=
  [⟨1, "G1", 0, "Spa", "Morning", 34⟩, ⟨2, "G2", 7, "Pool", "Noche", 67⟩]

/-- A file with guest, tip, dept and tod present but no day column. -/
def noDayTable : RawTable :=
  ⟨["guest", "tip", "dept", "tod"], [["G1", "5", "Spa", "Morning"]]⟩

/-- Two records in departments that tie on total tip, the alphabetically
later department first. -/
def tieRecords : List CanonicalRecord :=
  [⟨1, "G1", 5, "Zeta", "Morning", 34⟩, ⟨1, "G2", 5, "Alpha", "Evening", 43⟩]

/-- `tieRecords` in the opposite order. -/
def tieRecordsRev : List CanonicalRecord :=
  [⟨1, "G2", 5, "Alpha", "Evening", 43⟩, ⟨1, "G1", 5, "Zeta", "Morning", 34⟩]

/-- Two records on different days with equal tips (a peak-day tie). -/
def tieDays : List CanonicalRecord :=
  [⟨3, "G1", 5, "Spa", "Morning", 82⟩, ⟨1, "G2", 5, "Pool", "Morning", 34⟩]

/-- `tieDays` in the opposite order. -/
def tieDaysRev : List CanonicalRecord :=
  [⟨1, "G2", 5, "Pool", "Morning", 34⟩, ⟨3, "G1", 5, "Spa", "Morning", 82⟩]

/-- Distinct department names in first-occurrence order: the grouping order
the claim asserts for the tie-break (spec wording), as opposed to the
alphabetical order `groupby(sort=True)` actually produces. -/
def firstSeenKeys (l : List String) : List String :=
  l.foldl (fun acc a => if a ∈ acc then acc else acc ++ [a]) []

/-- Department totals as the claim describes them: groups in first-seen
order, then a stable descending sort by total. -/
def dep_sum_firstSeen (rs : List CanonicalRecord) : List (String × ℚ) :=
  sortDescBy (fun p => p.2)
    ((firstSeenKeys (rs.map (fun r => r.dept))).map
      (fun k => (k, tipsOfBy (fun r => r.dept) rs k)))

/-! ## The claims -/

/-- Claim C1 (code_bug): the mojibake "repair" of app.py lines 46-48 encodes
to Latin-1 and decodes back as Latin-1, which is the identity on the
corrupted header, so `"Day / DÃ­a"` is never matched against `col_map` and
the day column stays unmapped — `normalize` then fails on the mojibake file
while succeeding on the correctly encoded one.  Decoding the same bytes as
UTF-8 (the repair the code's own comment announces) would have recovered
`"Day / Día"`. -/
theorem claim1_header_repair_noop :
    mapHeader "Day / Día" = "day" ∧
    mapHeader mojiDayHeader = mojiDayHeader ∧
    mojiDayHeader ≠ "day" ∧
    decodeUtf8 (encodeLatin1Ignore mojiDayHeader) = some ("Day / Día".data) ∧
    normalize mojiTable = Except.error (IngestError.missingColumn "day") ∧
    normalize cleanTable
      = Except.ok [⟨1, "G1", 10, "Spa", "Morning", 34⟩] := by
  exact ⟨by decide, by decide, by decide, by decide, by with_unfolding_all decide,
    by with_unfolding_all decide⟩

/-- Claim C2 counterexample: a parseable negative tip cell survives
normalization unchanged, so an output record's tip is negative. -/
theorem claim2_negative_tip_emitted :
    normalize negTipTable = Except.ok [⟨1, "G1", -5, "Spa", "Morning", 34⟩] ∧
    ((⟨1, "G1", -5, "Spa", "Morning", 34⟩ : CanonicalRecord).tip < 0) := by
  exact ⟨by with_unfolding_all decide, by with_unfolding_all decide⟩

/-- Claim C2 amended: for every successfully normalized input, unparseable
tip cells are coerced to 0, no row is dropped (the record count equals the
input row count), and every record's tip is exactly the coercion of its tip
cell — parseable values, including negative ones, pass through unchanged. -/
theorem claim2_tip_fill_keeps_rows (t : RawTable) (recs : List CanonicalRecord)
    (h : normalize t = Except.ok recs) :
    recs.length = t.rows.length ∧
    (∀ s, parseRat s = none → coerceTip s = 0) ∧
    ∃ tipCol, getCol t "tip" = some tipCol ∧
      recs.map (fun r => r.tip) = tipCol.map coerceTip := by
  obtain ⟨dayCol, tipCol, todCol, guestCol, deptCol, hday, hall, htip, htod,
    hguest, hdept, hrec⟩ := normalize_ok_inv h
  subst hrec
  refine ⟨buildRecords_length _ _ _ _ _ _, ?_, tipCol, htip,
    buildRecords_map_tip _ _ _ _ _ _ (getCol_length htip)⟩
  intro s hs
  simp [coerceTip, hs]

/-- Claim C2 witness: the amended statement evaluated on a concrete file
with one unparseable tip cell. -/
theorem claim2_tip_fill_keeps_rows_witness :
    fillTipRecords.length = fillTipTable.rows.length ∧
    (∀ s, parseRat s = none → coerceTip s = 0) ∧
    ∃ tipCol, getCol fillTipTable "tip" = some tipCol ∧
      fillTipRecords.map (fun r => r.tip) = tipCol.map coerceTip :=
  claim2_tip_fill_keeps_rows fillTipTable fillTipRecords (by with_unfolding_all decide)

/-- Claim C3 (code_bug): one unparseable day cell makes
`pd.to_numeric(df["day"], errors="coerce").astype(int)` raise
IntCastingNaNError, so ingestion aborts instead of keeping the row with a
zero day as the claim (and the fallback at app.py line 77) intends. -/
theorem claim3_unparseable_day_aborts :
    normalize badDayTable = Except.error IngestError.intCastingNaN := by
  with_unfolding_all decide

/-- Claim C4 counterexample: with two departments tied on total, the code
emits them in ascending department-name order (groupby pre-sorts keys
alphabetically), not in the claim's first-encountered order. -/
theorem claim4_first_seen_tiebreak_fails :
    dep_sum tieRecords = [("Alpha", 5), ("Zeta", 5)] ∧
    dep_sum_firstSeen tieRecords = [("Zeta", 5), ("Alpha", 5)] ∧
    dep_sum tieRecords ≠ dep_sum_firstSeen tieRecords := by
  exact ⟨by with_unfolding_all decide, by with_unfolding_all decide,
    by with_unfolding_all decide⟩

/-- Claim C4 amended: `dep_sum` groups by department, sums tips, sorts
descending by total with ties in ascending (alphabetical) department-name
order; the result is invariant under any reordering of the input records,
and its entries are exactly the distinct departments with their tip sums. -/
theorem claim4_dept_totals_order (rs rs' : List CanonicalRecord) (h : rs ~ rs') :
    dep_sum rs = dep_sum rs' ∧
    (dep_sum rs).Pairwise (fun a b => b.2 < a.2 ∨ (a.2 = b.2 ∧ a.1 < b.1)) ∧
    ∀ p, p ∈ dep_sum rs ↔
      (p.1 ∈ rs.map (fun r => r.dept) ∧ p.2 = tipsOfBy (fun r => r.dept) rs p.1) := by
  refine ⟨dep_sum_perm h, ?_, ?_⟩
  · exact sortDescBy_snd_tie (groupTotals (fun r => r.dept) rs)
      (groupTotals_pairwise_fst _ rs)
  · intro p
    have hperm := sortDescBy_perm (fun p : String × ℚ => p.2)
      (groupTotals (fun r => r.dept) rs)
    unfold dep_sum
    rw [hperm.mem_iff, mem_groupTotals]

/-- Claim C4 witness: the amended statement evaluated on the tied records
and their reversal. -/
theorem claim4_dept_totals_order_witness :
    dep_sum tieRecords = dep_sum tieRecordsRev ∧
    (dep_sum tieRecords).Pairwise (fun a b => b.2 < a.2 ∨ (a.2 = b.2 ∧ a.1 < b.1)) ∧
    ∀ p, p ∈ dep_sum tieRecords ↔
      (p.1 ∈ tieRecords.map (fun r => r.dept) ∧
        p.2 = tipsOfBy (fun r => r.dept) tieRecords p.1) :=
  claim4_dept_totals_order tieRecords tieRecordsRev (by with_unfolding_all decide)

/-- Claim C5 counterexample: on the empty record set the mean is NaN
(`none`), not 0, and `idxmax` raises (`none`), so the insight computations
do fail. -/
theorem claim5_empty_insights_fail :
    avg_tip ([] : List CanonicalRecord) ≠ some 0 ∧
    most_active_day ([] : List CanonicalRecord) = none := by
  exact ⟨by decide, rfl⟩

/-- Claim C5 amended: on empty input the three grouped views are empty and
`top_dept` is absent, but `avg_tip` is NaN (`none`, pandas mean of an empty
column) and the peak-day computation raises (`none`, `idxmax` on an empty
series) rather than succeeding with zeros. -/
theorem claim5_empty_aggregates :
    dep_sum ([] : List CanonicalRecord) = [] ∧
    daily ([] : List CanonicalRecord) = [] ∧
    top_guests 5 ([] : List CanonicalRecord) = [] ∧
    top_dept ([] : List CanonicalRecord) = none ∧
    avg_tip ([] : List CanonicalRecord) = none ∧
    most_active_day ([] : List CanonicalRecord) = none :=
  ⟨rfl, rfl, rfl, rfl, rfl, rfl⟩

/-- Claim C6 counterexample: guest, tip, dept (and even tod) are present and
only day is missing, yet normalization fails with a missing-column error
instead of defaulting the day column. -/
theorem claim6_missing_day_fails :
    (getCol noDayTable "guest").isSome = true ∧
    (getCol noDayTable "tip").isSome = true ∧
    (getCol noDayTable "dept").isSome = true ∧
    (getCol noDayTable "tod").isSome = true ∧
    normalize noDayTable = Except.error (IngestError.missingColumn "day") := by
  exact ⟨by decide, by decide, by decide, by decide, by decide⟩

/-- Claim C6 amended: all five canonical columns (day, tip, tod, guest,
dept) are required — normalization succeeds exactly when all five are
present and every day cell parses; a missing-column failure implies some of
the five is absent; and whenever some of the five is absent (and the day
column, if present, parses — otherwise the IntCastingNaN error preempts),
normalization fails with a missing-column error.  day and tod are never
defaulted. -/
theorem claim6_required_columns (t : RawTable) :
    ((∃ recs, normalize t = Except.ok recs) ↔
      (allCols t = true ∧ dayColParses t = true)) ∧
    (∀ c, normalize t = Except.error (IngestError.missingColumn c) →
      allCols t = false) ∧
    (allCols t = false → dayColParses t = true →
      ∃ c, normalize t = Except.error (IngestError.missingColumn c)) := by
  cases hday : getCol t "day" with
  | none =>
    refine ⟨?_, ?_, ?_⟩ <;>
      simp [normalize_day_none hday, allCols, dayColParses, hday]
  | some dayCol =>
    cases hall : dayCol.all (fun c => (parseRat c).isSome) with
    | false =>
      refine ⟨?_, ?_, ?_⟩ <;>
        simp [normalize_day_bad hday hall, allCols, dayColParses, hday, hall]
    | true =>
      cases htip : getCol t "tip" with
      | none =>
        refine ⟨?_, ?_, ?_⟩ <;>
          simp [normalize_tip_none hday hall htip, allCols, dayColParses,
            hday, hall, htip]
      | some tipCol =>
        cases htod : getCol t "tod" with
        | none =>
          refine ⟨?_, ?_, ?_⟩ <;>
            simp [normalize_tod_none hday hall htip htod, allCols,
              dayColParses, hday, hall, htip, htod]
        | some todCol =>
          cases hguest : getCol t "guest" with
          | none =>
            refine ⟨?_, ?_, ?_⟩ <;>
              simp [normalize_guest_none hday hall htip htod hguest, allCols,
                dayColParses, hday, hall, htip, htod, hguest]
          | some guestCol =>
            cases hdept : getCol t "dept" with
            | none =>
              refine ⟨?_, ?_, ?_⟩ <;>
                simp [normalize_dept_none hday hall htip htod hguest hdept,
                  allCols, dayColParses, hday, hall, htip, htod, hguest, hdept]
            | some deptCol =>
              refine ⟨?_, ?_, ?_⟩ <;>
                simp [normalize_ok_eq hday hall htip htod hguest hdept,
                  allCols, dayColParses, hday, hall, htip, htod, hguest, hdept]

/-- Claim C6 witness: the amended statement's missing-column direction
evaluated on the concrete file lacking only the day column. -/
theorem claim6_required_columns_witness :
    allCols noDayTable = false ∧ dayColParses noDayTable = true ∧
    ∃ c, normalize noDayTable = Except.error (IngestError.missingColumn c) :=
  ⟨by decide, by decide,
    (claim6_required_columns noDayTable).2.2 (by decide) (by decide)⟩

/-- Claim C7 (confirmed): grouping by department conserves the total — the
sum of the `dep_sum` values equals the sum of all records' tips. -/
theorem claim7_tip_conservation (rs : List CanonicalRecord) :
    ((dep_sum rs).map (fun p => p.2)).sum = (rs.map (fun r => r.tip)).sum := by
  have hperm := (sortDescBy_perm (fun p : String × ℚ => p.2)
    (groupTotals (fun r => r.dept) rs)).map (fun p : String × ℚ => p.2)
  unfold dep_sum
  rw [hperm.sum_eq]
  unfold groupTotals
  rw [List.map_map]
  have hcov : ∀ r ∈ rs, r.dept ∈ groupKeys (fun r => r.dept) rs := by
    intro r hr
    rw [mem_groupKeys]
    exact List.mem_map_of_mem _ hr
  exact sum_fiber (fun r => r.dept) (groupKeys (fun r => r.dept) rs) rs
    (groupKeys_nodup _ rs) hcov

/-- Claim C8 (confirmed): the recent log is sorted non-increasing by
timestamp, has length `min limit n` (the script calls it with limit 15),
and contains only (unmodified) input records. -/
theorem claim8_recent_log (limit : Nat) (rs : List CanonicalRecord) :
    (recent limit rs).Pairwise (fun a b => b.timestamp ≤ a.timestamp) ∧
    (recent limit rs).length = min limit rs.length ∧
    ∀ r ∈ recent limit rs, r ∈ rs := by
  unfold recent
  refine ⟨?_, ?_, ?_⟩
  · exact (sortDescBy_pairwise (fun r => r.timestamp) rs).sublist
      (List.take_sublist _ _)
  · rw [List.length_take, (sortDescBy_perm (fun r => r.timestamp) rs).length_eq]
  · intro r hr
    exact (sortDescBy_perm (fun r => r.timestamp) rs).mem_iff.mp
      (List.take_subset _ _ hr)

/-- Claim C8 witness: the recent-log properties evaluated at limit 15 on a
concrete record list. -/
theorem claim8_recent_log_witness :
    (recent 15 tieDays).Pairwise (fun a b => b.timestamp ≤ a.timestamp) ∧
    (recent 15 tieDays).length = min 15 tieDays.length ∧
    ∀ r ∈ recent 15 tieDays, r ∈ tieDays :=
  claim8_recent_log 15 tieDays

/-- Claim C9 (confirmed): the reported peak day is the numerically smallest
day whose total ties the maximum — `daily` is grouped in ascending day
order and `idxmax` picks the first maximal entry — and the result is
independent of the input row order. -/
theorem claim9_peak_day_tiebreak (rs rs' : List CanonicalRecord)
    (h1 : rs ≠ []) (h2 : rs ~ rs') :
    most_active_day rs = most_active_day rs' ∧
    ∃ d q, most_active_day rs = some d ∧ (d, q) ∈ daily rs ∧
      ∀ p ∈ daily rs, p.2 ≤ q ∧ (p.2 = q → d ≤ p.1) := by
  refine ⟨most_active_day_perm h2, ?_⟩
  have hne : daily rs ≠ [] := by
    rcases List.exists_mem_of_ne_nil rs h1 with ⟨r, hr⟩
    intro hd
    have hmem : r.day ∈ rs.map (fun r => r.day) := List.mem_map_of_mem _ hr
    have h3 := (mem_groupKeys (fun r => r.day) rs r.day).mpr hmem
    unfold daily groupTotals at hd
    rw [List.map_eq_nil_iff] at hd
    rw [hd] at h3
    cases h3
  obtain ⟨e, he1, he2, he3, he4⟩ := argmaxFirst_spec (daily rs)
    (groupTotals_pairwise_fst _ rs) hne
  refine ⟨e.1, e.2, ?_, ?_, ?_⟩
  · unfold most_active_day
    rw [he1]
    rfl
  · simpa using he2
  · intro p hp
    exact ⟨he3 p hp, fun hq => he4 p hp hq⟩

/-- Claim C9 witness: two days tied on total — the smaller day is reported,
in both row orders. -/
theorem claim9_peak_day_tiebreak_witness :
    most_active_day tieDays = most_active_day tieDaysRev ∧
    ∃ d q, most_active_day tieDays = some d ∧ (d, q) ∈ daily tieDays ∧
      ∀ p ∈ daily tieDays, p.2 ≤ q ∧ (p.2 = q → d ≤ p.1) :=
  claim9_peak_day_tiebreak tieDays tieDaysRev (by decide) (by with_unfolding_all decide)

/-- Claim C10 (confirmed): swapping every time-of-day cell between English
and Spanish synonyms changes no derived timestamp — the records differ only
in the stored `tod` text — and the recent log of the swapped input is the
swapped recent log of the original, so its ordering is identical. -/
theorem claim10_locale_noninterference (n : Nat)
    (ds gs ts dps tds : List String) (limit : Nat) :
    buildRecords n ds gs ts dps (tds.map swapLang)
      = (buildRecords n ds gs ts dps tds).map swapRec ∧
    (buildRecords n ds gs ts dps (tds.map swapLang)).map (fun r => r.timestamp)
      = (buildRecords n ds gs ts dps tds).map (fun r => r.timestamp) ∧
    recent limit (buildRecords n ds gs ts dps (tds.map swapLang))
      = (recent limit (buildRecords n ds gs ts dps tds)).map swapRec := by
  have hb := buildRecords_swapLang n ds gs ts dps tds
  have hts : ∀ r : CanonicalRecord, (swapRec r).timestamp = r.timestamp :=
    fun r => rfl
  refine ⟨hb, ?_, ?_⟩
  · rw [hb, List.map_map]
    apply List.map_congr_left
    intro x _
    exact hts x
  · unfold recent
    rw [hb, sortDescBy_map (fun r => r.timestamp) swapRec hts, List.map_take]

end TipEase
